import Mathlib

/-!
Verification of the itoa-example program: a custom unsigned-64-bit
integer-to-decimal-text converter (`SimpleDisplay`), its benchmark driver,
and the timing-statistics aggregation, embedded shallowly in Lean.

Byte buffers are `List Nat` (each element a byte value); unsigned 64-bit
values are `Nat` with explicit `< 2 ^ 64` bounds where they matter.
Fallible steps of the Rust code (index underflow and out-of-bounds panics,
`unwrap` on an empty iterator, arithmetic-overflow panics, invalid range
bounds for `gen_range`) are modelled with `Option`: `none` means a panic.
-/

/-- Constant `BENCH_SIZE` from the source. -/
def BENCH_SIZE : Nat := 1000000

/-- Constant `BENCH_ITER` from the source. -/
def BENCH_ITER : Nat := 100

/-- The exclusive upper bound of the `u64` range. -/
def U64_SIZE : Nat := 2 ^ 64

/-- The initial contents of the conversion buffer:
`let mut buf = *b"18446744073709551615";` (20 ASCII bytes). -/
def initBuf : List Nat := "18446744073709551615".toList.map Char.toNat

/-- The do-while digit-fill loop of `impl Display for SimpleDisplay`:
`cur -= 1; let m = n % 10; n = n / 10; buf[cur] = (m as u8) + b'0';`
repeated while `n > 0` afterwards.  The `Option` models the two panic
points: decrementing `cur` below zero and an out-of-bounds store. -/
def loopAuxChecked : Nat → List Nat → Nat → Option (List Nat × Nat)
  | _, _, 0 => none
  | n, buf, cur + 1 =>
    if cur < buf.length then
      let buf2 := buf.set cur (n % 10 + 48)
      if n / 10 > 0 then loopAuxChecked (n / 10) buf2 cur else some (buf2, cur)
    else none

/-- The byte run emitted by `SimpleDisplay::fmt` for value `v`: run the fill
loop starting with `cur = buf.len()` and take `buf[cur..]`, the slice that
is handed to `from_utf8_unchecked` and then to `pad_integral`. -/
def simpleDisplayFmt (v : Nat) : Option (List Nat) :=
  match loopAuxChecked v initBuf initBuf.length with
  | some (buf, cur) => some (buf.drop cur)
  | none => none

/-- The emitted bytes decoded as text. -/
def simpleDisplayString (v : Nat) : Option String :=
  (simpleDisplayFmt v).map (fun bs => String.mk (bs.map Char.ofNat))

/-- Modelled from the spec: the baseline standard formatter (external to the
repository) renders the canonical decimal digit byte string of the value,
most significant digit first, with no leading zeros, and with the value zero
rendering as the single byte of `'0'`. -/
def baselineFmt (v : Nat) : List Nat :=
  if v = 0 then [48] else (Nat.digits 10 v).reverse.map (fun d => d + 48)

/-- Formatting options a caller can request of the destination sink:
a minimum width and a fill byte. -/
structure FmtSpec where
  width : Nat
  fill : Nat
deriving DecidableEq

/-- Modelled from the spec: the destination sink's padding-aware write
primitive (`Formatter::pad_integral` with a nonnegative sign and an empty
radix marker), which achieves a caller-requested minimum width by
left-padding the digit run with the fill byte. -/
def padIntegral (o : FmtSpec) (s : List Nat) : List Nat :=
  List.replicate (o.width - s.length) o.fill ++ s

/-- The number of iterations the digit-fill loop performs on input `n`:
one iteration always happens, and the loop repeats exactly while the
quotient `n / 10` is still positive. -/
def loopIters (n : Nat) : Nat :=
  if h : n / 10 > 0 then loopIters (n / 10) + 1 else 1
decreasing_by
  exact Nat.div_lt_self (Nat.lt_of_lt_of_le h (Nat.div_le_self n 10)) (by omega)

/-- The timing statistics record from the source (`struct Stats`). -/
structure Stats where
  avg : ℚ
  min : ℚ
  max : ℚ
deriving DecidableEq

/-- The `stats` function from the source: minimum and maximum of the samples
by ordering comparison (floating-point durations are modelled as rationals,
which is faithful on NaN-free finite data), and average computed as the sum
divided by the constant `BENCH_ITER` — not by the number of samples.  On an
empty sample list `min_by(...).unwrap()` panics, modelled as `none`. -/
def stats (vs : List ℚ) : Option Stats :=
  match vs with
  | [] => none
  | x :: xs => some ⟨(x :: xs).sum / (BENCH_ITER : ℚ), xs.foldl Min.min x, xs.foldl Max.max x⟩

/-- The digit-length classes the driver loop actually visits:
`for digits in 1..20` iterates 1 through 19 inclusive. -/
def mainDigits : List Nat := List.range' 1 19

/-- The per-class value range set up by `bench_for_digits`, with the panic
points modelled: `10u64.pow(digits - 1)` overflowing `u64`,
`value_min * 10` overflowing `u64`, and `gen_range(value_min, value_min * 10)`
requiring a nonempty half-open range. -/
def benchRangeChecked (digits : Nat) : Option (Nat × Nat) :=
  if 10 ^ (digits - 1) < U64_SIZE then
    if 10 ^ (digits - 1) * 10 < U64_SIZE then
      if 10 ^ (digits - 1) < 10 ^ (digits - 1) * 10 then
        some (10 ^ (digits - 1), 10 ^ (digits - 1) * 10)
      else none
    else none
  else none

/-! ### Basic facts about the baseline digit string -/

theorem baselineFmt_len_pos (v : Nat) : 0 < (baselineFmt v).length := by
  unfold baselineFmt
  by_cases h : v = 0
  · simp [h]
  · simpa [h] using List.length_pos.mpr (Nat.digits_ne_nil_iff_ne_zero.mpr h)

theorem baselineFmt_lt_ten {v : Nat} (h : v < 10) : baselineFmt v = [v + 48] := by
  unfold baselineFmt
  by_cases h0 : v = 0
  · simp [h0]
  · simp [h0, Nat.digits_of_lt 10 v h0 h]

theorem baselineFmt_ge_ten {v : Nat} (h : 10 ≤ v) :
    baselineFmt v = baselineFmt (v / 10) ++ [v % 10 + 48] := by
  have h0 : v ≠ 0 := by omega
  have hq : v / 10 ≠ 0 :=
    Nat.pos_iff_ne_zero.mp (Nat.div_pos h (by norm_num))
  unfold baselineFmt
  rw [if_neg h0, if_neg hq, Nat.digits_def' (by norm_num : (1 : ℕ) < 10) (by omega)]
  simp

theorem baselineFmt_len_le :
    ∀ (k v : Nat), 0 < k → v < 10 ^ k → (baselineFmt v).length ≤ k := by
  intro k
  induction k with
  | zero => omega
  | succ k ih =>
    intro v _ hv
    by_cases h10 : v < 10
    · rw [baselineFmt_lt_ten h10]
      simp
    · have hk : 0 < k := by
        by_contra hk0
        have : k = 0 := by omega
        subst this
        simp at hv
        omega
      rw [baselineFmt_ge_ten (by omega)]
      have hdiv : v / 10 < 10 ^ k := by
        rw [Nat.div_lt_iff_lt_mul (by norm_num : (0 : ℕ) < 10)]
        calc v < 10 ^ (k + 1) := hv
          _ = 10 ^ k * 10 := by ring
      have := ih (v / 10) hk hdiv
      simp only [List.length_append, List.length_cons, List.length_nil]
      omega

theorem baselineFmt_len_ge :
    ∀ (k v : Nat), 10 ^ k ≤ v → k + 1 ≤ (baselineFmt v).length := by
  intro k
  induction k with
  | zero =>
    intro v _
    exact baselineFmt_len_pos v
  | succ k ih =>
    intro v hv
    have h10 : 10 ≤ v := by
      have h1 : 10 ^ 1 ≤ 10 ^ (k + 1) := Nat.pow_le_pow_right (by norm_num) (by omega)
      simpa using le_trans h1 hv
    rw [baselineFmt_ge_ten h10]
    have hdiv : 10 ^ k ≤ v / 10 := by
      rw [Nat.le_div_iff_mul_le (by norm_num : (0 : ℕ) < 10)]
      calc 10 ^ k * 10 = 10 ^ (k + 1) := by ring
        _ ≤ v := hv
    have := ih (v / 10) hdiv
    simp only [List.length_append, List.length_cons, List.length_nil]
    omega

theorem baselineFmt_mem_range (v : Nat) : ∀ b ∈ baselineFmt v, 48 ≤ b ∧ b ≤ 57 := by
  intro b hb
  unfold baselineFmt at hb
  by_cases h : v = 0
  · simp [h] at hb
    omega
  · rw [if_neg h] at hb
    simp only [List.mem_map, List.mem_reverse] at hb
    obtain ⟨d, hd, rfl⟩ := hb
    have := Nat.digits_lt_base (by norm_num : (1 : ℕ) < 10) hd
    omega

theorem baselineFmt_head_ne_zero {v : Nat} (h : v ≠ 0) :
    (baselineFmt v).head? ≠ some 48 := by
  unfold baselineFmt
  rw [if_neg h]
  have hne : Nat.digits 10 v ≠ [] := Nat.digits_ne_nil_iff_ne_zero.mpr h
  have hlast := Nat.getLast_digit_ne_zero 10 h
  rw [List.head?_map, List.head?_reverse, List.getLast?_eq_getLast _ hne]
  simp only [Option.map_some']
  intro hc
  apply hlast
  have := Option.some.inj hc
  omega

/-! ### The digit-fill loop writes exactly the baseline digit string -/

theorem drop_set_self (l : List Nat) :
    ∀ (c d : Nat), c < l.length → (l.set c d).drop c = d :: l.drop (c + 1) := by
  induction l with
  | nil => intro c d h; simp at h
  | cons a t ih =>
    intro c d h
    cases c with
    | zero => simp
    | succ c =>
      simp only [List.set_cons_succ, List.drop_succ_cons]
      exact ih c d (by simpa using h)

/-- Main loop invariant: started with a cursor large enough to hold the
digits of `v`, the fill loop completes without a panic, the cursor retreats
by exactly the digit count, the buffer length is preserved, and the slice
from the final cursor holds the decimal digits of `v` followed by whatever
was beyond the initial cursor. -/
theorem loopAuxChecked_spec :
    ∀ (v : Nat) (buf : List Nat) (cur : Nat),
      (baselineFmt v).length ≤ cur → cur ≤ buf.length →
      ∃ buf2 : List Nat,
        loopAuxChecked v buf cur = some (buf2, cur - (baselineFmt v).length) ∧
        buf2.length = buf.length ∧
        buf2.drop (cur - (baselineFmt v).length) = baselineFmt v ++ buf.drop cur := by
  intro v
  induction v using Nat.strong_induction_on with
  | _ v ih =>
    intro buf cur hlen hcur
    obtain ⟨c, rfl⟩ : ∃ c, cur = c + 1 :=
      ⟨cur - 1, by have := baselineFmt_len_pos v; omega⟩
    have hc : c < buf.length := by omega
    by_cases h10 : v < 10
    · have hdiv : v / 10 = 0 := Nat.div_eq_of_lt h10
      have hmod : v % 10 = v := Nat.mod_eq_of_lt h10
      have hbase : baselineFmt v = [v + 48] := baselineFmt_lt_ten h10
      refine ⟨buf.set c (v % 10 + 48), ?_, by simp, ?_⟩
      · simp only [loopAuxChecked, if_pos hc, hdiv]
        rw [hbase]
        simp
      · rw [hbase]
        simp only [List.length_cons, List.length_nil]
        have : c + 1 - 1 = c := by omega
        rw [this, drop_set_self buf c (v % 10 + 48) hc, hmod]
        simp
    · have hv10 : 10 ≤ v := by omega
      have hq : 0 < v / 10 := Nat.div_pos hv10 (by norm_num)
      have hbase : baselineFmt v = baselineFmt (v / 10) ++ [v % 10 + 48] :=
        baselineFmt_ge_ten hv10
      have hlen2 : (baselineFmt (v / 10)).length ≤ c := by
        rw [hbase] at hlen
        simp only [List.length_append, List.length_cons, List.length_nil] at hlen
        omega
      have hcur2 : c ≤ (buf.set c (v % 10 + 48)).length := by
        simp only [List.length_set]
        omega
      obtain ⟨buf2, he, hl, hd⟩ :=
        ih (v / 10) (Nat.div_lt_self (by omega) (by omega))
          (buf.set c (v % 10 + 48)) c hlen2 hcur2
      have hidx : c - (baselineFmt (v / 10)).length = c + 1 - (baselineFmt v).length := by
        rw [hbase]
        simp only [List.length_append, List.length_cons, List.length_nil]
        omega
      refine ⟨buf2, ?_, ?_, ?_⟩
      · simp only [loopAuxChecked, if_pos hc, if_pos hq]
        rw [he, hidx]
      · rw [hl]
        simp
      · rw [← hidx, hd, drop_set_self buf c (v % 10 + 48) hc, hbase]
        simp

/-- Refinement: for every `u64` value, the Converter's emitted byte run is
exactly the baseline canonical decimal digit string, and no panic occurs. -/
theorem simpleDisplayFmt_eq_baseline {v : Nat} (h : v < U64_SIZE) :
    simpleDisplayFmt v = some (baselineFmt v) := by
  have hten : v < 10 ^ 20 := by
    have : U64_SIZE < 10 ^ 20 := by norm_num [U64_SIZE]
    omega
  have h20 : (baselineFmt v).length ≤ 20 := baselineFmt_len_le 20 v (by norm_num) hten
  have hinit : initBuf.length = 20 := by rfl
  obtain ⟨buf2, he, hl, hd⟩ := loopAuxChecked_spec v initBuf 20 h20 (le_of_eq hinit.symm)
  have hdrop : initBuf.drop 20 = [] := by rfl
  unfold simpleDisplayFmt
  rw [hinit, he]
  rw [hdrop, List.append_nil] at hd
  show some (buf2.drop (20 - (baselineFmt v).length)) = some (baselineFmt v)
  rw [hd]

/-- The iteration count of the fill loop is the digit count of the input. -/
theorem loopIters_eq_len (v : Nat) : loopIters v = (baselineFmt v).length := by
  induction v using Nat.strong_induction_on with
  | _ v ih =>
    by_cases h10 : v < 10
    · have hdiv : v / 10 = 0 := Nat.div_eq_of_lt h10
      rw [loopIters, baselineFmt_lt_ten h10]
      simp [hdiv]
    · have hq : 0 < v / 10 := Nat.div_pos (by omega) (by norm_num)
      rw [loopIters, baselineFmt_ge_ten (by omega : 10 ≤ v)]
      rw [dif_pos hq, ih (v / 10) (Nat.div_lt_self (by omega) (by omega))]
      simp

/-! ### Facts about the fold-based minimum and maximum of the sample list -/

theorem foldl_min_le_init (l : List ℚ) : ∀ a : ℚ, l.foldl Min.min a ≤ a := by
  induction l with
  | nil => intro a; exact le_refl a
  | cons x t ih =>
    intro a
    calc (x :: t).foldl Min.min a = t.foldl Min.min (min a x) := rfl
      _ ≤ min a x := ih (min a x)
      _ ≤ a := min_le_left a x

theorem foldl_min_le_mem (l : List ℚ) :
    ∀ (a y : ℚ), y ∈ l → l.foldl Min.min a ≤ y := by
  induction l with
  | nil => intro a y hy; simp at hy
  | cons x t ih =>
    intro a y hy
    rcases List.mem_cons.mp hy with rfl | hy
    · calc (y :: t).foldl Min.min a = t.foldl Min.min (min a y) := rfl
        _ ≤ min a y := foldl_min_le_init t (min a y)
        _ ≤ y := min_le_right a y
    · exact ih (min a x) y hy

theorem foldl_min_mem (l : List ℚ) :
    ∀ a : ℚ, l.foldl Min.min a = a ∨ l.foldl Min.min a ∈ l := by
  induction l with
  | nil => intro a; left; rfl
  | cons x t ih =>
    intro a
    rcases ih (min a x) with h | h
    · rcases min_choice a x with hm | hm
      · left; rw [List.foldl_cons, h, hm]
      · right; rw [List.foldl_cons, h, hm]; exact List.mem_cons_self x t
    · right; exact List.mem_cons_of_mem x h

theorem foldl_max_init_le (l : List ℚ) : ∀ a : ℚ, a ≤ l.foldl Max.max a := by
  induction l with
  | nil => intro a; exact le_refl a
  | cons x t ih =>
    intro a
    calc a ≤ max a x := le_max_left a x
      _ ≤ t.foldl Max.max (max a x) := ih (max a x)
      _ = (x :: t).foldl Max.max a := rfl

theorem foldl_max_mem_le (l : List ℚ) :
    ∀ (a y : ℚ), y ∈ l → y ≤ l.foldl Max.max a := by
  induction l with
  | nil => intro a y hy; simp at hy
  | cons x t ih =>
    intro a y hy
    rcases List.mem_cons.mp hy with rfl | hy
    · calc y ≤ max a y := le_max_right a y
        _ ≤ t.foldl Max.max (max a y) := foldl_max_init_le t (max a y)
        _ = (y :: t).foldl Max.max a := rfl
    · exact ih (max a x) y hy

theorem foldl_max_mem (l : List ℚ) :
    ∀ a : ℚ, l.foldl Max.max a = a ∨ l.foldl Max.max a ∈ l := by
  induction l with
  | nil => intro a; left; rfl
  | cons x t ih =>
    intro a
    rcases ih (max a x) with h | h
    · rcases max_choice a x with hm | hm
      · left; rw [List.foldl_cons, h, hm]
      · right; rw [List.foldl_cons, h, hm]; exact List.mem_cons_self x t
    · right; exact List.mem_cons_of_mem x h

theorem length_mul_le_sum (m : ℚ) :
    ∀ l : List ℚ, (∀ y ∈ l, m ≤ y) → (l.length : ℚ) * m ≤ l.sum := by
  intro l
  induction l with
  | nil => intro _; simp
  | cons x t ih =>
    intro hall
    have hx : m ≤ x := hall x (List.mem_cons_self x t)
    have ht : (t.length : ℚ) * m ≤ t.sum := ih fun y hy => hall y (List.mem_cons_of_mem x hy)
    simp only [List.sum_cons, List.length_cons]
    push_cast
    linarith

theorem sum_le_length_mul (M : ℚ) :
    ∀ l : List ℚ, (∀ y ∈ l, y ≤ M) → l.sum ≤ (l.length : ℚ) * M := by
  intro l
  induction l with
  | nil => intro _; simp
  | cons x t ih =>
    intro hall
    have hx : x ≤ M := hall x (List.mem_cons_self x t)
    have ht : t.sum ≤ (t.length : ℚ) * M := ih fun y hy => hall y (List.mem_cons_of_mem x hy)
    simp only [List.sum_cons, List.length_cons]
    push_cast
    linarith

theorem stats_min_le_all {vs : List ℚ} {s : Stats} (hs : stats vs = some s) :
    ∀ y ∈ vs, s.min ≤ y := by
  match vs, hs with
  | x :: xs, hs =>
    obtain rfl := Option.some.inj hs
    intro y hy
    rcases List.mem_cons.mp hy with rfl | hy
    · exact foldl_min_le_init xs y
    · exact foldl_min_le_mem xs x y hy

theorem stats_all_le_max {vs : List ℚ} {s : Stats} (hs : stats vs = some s) :
    ∀ y ∈ vs, y ≤ s.max := by
  match vs, hs with
  | x :: xs, hs =>
    obtain rfl := Option.some.inj hs
    intro y hy
    rcases List.mem_cons.mp hy with rfl | hy
    · exact foldl_max_init_le xs y
    · exact foldl_max_mem_le xs x y hy

theorem stats_avg_eq {vs : List ℚ} {s : Stats} (hs : stats vs = some s) :
    s.avg = vs.sum / (BENCH_ITER : ℚ) := by
  match vs, hs with
  | x :: xs, hs =>
    obtain rfl := Option.some.inj hs
    rfl

theorem foldl_min_replicate (n : Nat) (a : ℚ) :
    (List.replicate n a).foldl Min.min a = a := by
  induction n with
  | zero => rfl
  | succ n ih => simpa [List.replicate_succ, min_self] using ih

theorem foldl_max_replicate (n : Nat) (a : ℚ) :
    (List.replicate n a).foldl Max.max a = a := by
  induction n with
  | zero => rfl
  | succ n ih => simpa [List.replicate_succ, max_self] using ih

theorem stats_replicate_one : stats (List.replicate 100 (1 : ℚ)) = some ⟨1, 1, 1⟩ := by
  rw [show List.replicate 100 (1 : ℚ) = 1 :: List.replicate 99 1 from rfl]
  simp only [stats, List.sum_cons, List.sum_replicate, foldl_min_replicate,
    foldl_max_replicate, Option.some.injEq, Stats.mk.injEq]
  norm_num [BENCH_ITER, nsmul_eq_mul]

/-! ### The claims -/

/-- C1: for every unsigned 64-bit value `v`, the text rendered by the
Converter (`SimpleDisplay`'s `Display` implementation) is identical, byte for
byte, to the text rendered by the baseline standard formatter for `v`,
including under any caller-requested minimum-width/padding formatting
options: both hand the same digit run to the padding-aware write primitive,
so the padded outputs agree for every requested width and fill. -/
theorem c1_simple_display_matches_baseline (v : Nat) (h : v < U64_SIZE) (o : FmtSpec) :
    (simpleDisplayFmt v).map (padIntegral o) = some (padIntegral o (baselineFmt v)) := by
  rw [simpleDisplayFmt_eq_baseline h]
  rfl

theorem c1_witness :
    (simpleDisplayFmt 12345).map (padIntegral ⟨8, 32⟩) =
      some (padIntegral ⟨8, 32⟩ (baselineFmt 12345)) :=
  c1_simple_display_matches_baseline 12345 (by norm_num [U64_SIZE]) ⟨8, 32⟩

/-- C2: for every unsigned 64-bit input, every byte of the emitted slice
`buf[cur..]` — the slice handed to `from_utf8_unchecked` — is an ASCII digit
between `'0'` (48) and `'9'` (57) inclusive, so the unchecked
reinterpretation as text always receives valid ASCII/UTF-8. -/
theorem c2_emitted_bytes_are_ascii_digits (v : Nat) (h : v < U64_SIZE) (ds : List Nat)
    (hds : simpleDisplayFmt v = some ds) : ∀ b ∈ ds, 48 ≤ b ∧ b ≤ 57 := by
  rw [simpleDisplayFmt_eq_baseline h] at hds
  obtain rfl : baselineFmt v = ds := Option.some.inj hds
  exact baselineFmt_mem_range v

theorem c2_witness : 48 ≤ 57 ∧ 57 ≤ 57 :=
  c2_emitted_bytes_are_ascii_digits 905 (by norm_num [U64_SIZE]) [57, 48, 53] (by decide)
    57 (by decide)

/-- C3: for every unsigned 64-bit input the backward-fill loop runs at most
20 iterations (exactly the decimal digit count), the checked loop — which
returns `none` on any cursor underflow or out-of-bounds store — succeeds,
the final cursor is `20 - digits ≥ 0`, the 20-byte buffer keeps its length,
and for the maximum value `2 ^ 64 - 1` the loop fills the buffer completely
with final cursor 0 and 20 emitted digits. -/
theorem c3_loop_stays_in_bounds (v : Nat) (h : v < U64_SIZE) :
    loopIters v ≤ 20 ∧ loopIters v = (baselineFmt v).length ∧
    ∃ r : List Nat × Nat,
      loopAuxChecked v initBuf 20 = some r ∧
      r.2 = 20 - loopIters v ∧
      r.1.length = 20 ∧
      (v = U64_SIZE - 1 → r.2 = 0 ∧ (r.1.drop r.2).length = 20) := by
  have hten : v < 10 ^ 20 := by
    have : U64_SIZE < 10 ^ 20 := by norm_num [U64_SIZE]
    omega
  have h20 : (baselineFmt v).length ≤ 20 := baselineFmt_len_le 20 v (by norm_num) hten
  have hli : loopIters v = (baselineFmt v).length := loopIters_eq_len v
  obtain ⟨buf2, he, hl, hd⟩ :=
    loopAuxChecked_spec v initBuf 20 h20 (by rw [show initBuf.length = 20 from rfl])
  refine ⟨by omega, hli, ⟨buf2, 20 - (baselineFmt v).length⟩, he, by simp [hli], ?_, ?_⟩
  · rw [hl]
    rfl
  · intro hv
    have hge : 20 ≤ (baselineFmt v).length := by
      have : (10 : Nat) ^ 19 ≤ v := by
        subst hv
        norm_num [U64_SIZE]
      have := baselineFmt_len_ge 19 v this
      omega
    have hzero : 20 - (baselineFmt v).length = 0 := by omega
    refine ⟨hzero, ?_⟩
    simp only [hzero, List.drop_zero]
    rw [hl]
    rfl

theorem c3_witness :
    loopIters 18446744073709551615 ≤ 20 ∧
    loopIters 18446744073709551615 = (baselineFmt 18446744073709551615).length := by
  have h := c3_loop_stays_in_bounds 18446744073709551615 (by norm_num [U64_SIZE])
  exact ⟨h.1, h.2.1⟩

/-- C4: the digit-extraction loop terminates for every input: it performs
at least one iteration (so 0 still emits the single digit `"0"`), it repeats
exactly while the quotient after division by 10 is nonzero, and that
quotient strictly decreases at every repeat, which is the termination
measure. -/
theorem c4_loop_terminates :
    (∀ v : Nat, 1 ≤ loopIters v ∧ loopIters v = (baselineFmt v).length) ∧
    (∀ n : Nat, 0 < n / 10 → n / 10 < n) ∧
    simpleDisplayFmt 0 = some [48] := by
  refine ⟨fun v => ⟨?_, loopIters_eq_len v⟩, fun n hn => ?_, by decide⟩
  · rw [loopIters_eq_len v]
    exact baselineFmt_len_pos v
  · have hpos : 0 < n := lt_of_lt_of_le hn (Nat.div_le_self n 10)
    exact Nat.div_lt_self hpos (by omega)

theorem c4_witness : 42 / 10 < 42 := c4_loop_terminates.2.1 42 (by norm_num)

/-- C5: the Converter renders the five boundary values exactly as
`0 → "0"`, `1 → "1"`, `9 → "9"`, `10 → "10"`, and
`18446744073709551615 → "18446744073709551615"`. -/
theorem c5_boundary_values :
    simpleDisplayString 0 = some "0" ∧
    simpleDisplayString 1 = some "1" ∧
    simpleDisplayString 9 = some "9" ∧
    simpleDisplayString 10 = some "10" ∧
    simpleDisplayString 18446744073709551615 = some "18446744073709551615" := by
  refine ⟨by decide, by decide, by decide, by decide, by decide⟩

/-- C6: for every nonzero unsigned 64-bit value the first byte of the
rendered text is never `'0'` (48): the emitted slice starts at the final
cursor and the loop stops as soon as the quotient reaches zero, so no
leading zeros appear. -/
theorem c6_no_leading_zero (v : Nat) (h : v < U64_SIZE) (hv : v ≠ 0) (ds : List Nat)
    (hds : simpleDisplayFmt v = some ds) : ds.head? ≠ some 48 := by
  rw [simpleDisplayFmt_eq_baseline h] at hds
  obtain rfl : baselineFmt v = ds := Option.some.inj hds
  exact baselineFmt_head_ne_zero hv

theorem c6_witness : ([53, 48, 48] : List Nat).head? ≠ some 48 :=
  c6_no_leading_zero 500 (by norm_num [U64_SIZE]) (by norm_num) [53, 48, 48] (by decide)

/-- C7: for every digit-length class `d` in `[1, 20]` and every value `v`
in the class's range — `10 ^ (d - 1)` inclusive to `10 ^ d` exclusive, with
class 20 capped at `2 ^ 64 - 1` inclusive — the Converter's rendered text
has exactly `d` characters. -/
theorem c7_digit_length_classes (d v : Nat) (h1 : 1 ≤ d) (h2 : d ≤ 20)
    (hlo : 10 ^ (d - 1) ≤ v) (hhi : v < 10 ^ d) (hu : v < U64_SIZE) :
    (simpleDisplayFmt v).map List.length = some d := by
  rw [simpleDisplayFmt_eq_baseline hu]
  have hle : (baselineFmt v).length ≤ d := baselineFmt_len_le d v (by omega) hhi
  have hge : d ≤ (baselineFmt v).length := by
    have := baselineFmt_len_ge (d - 1) v hlo
    omega
  simp only [Option.map_some']
  congr 1
  omega

theorem c7_witness : (simpleDisplayFmt 500).map List.length = some 3 :=
  c7_digit_length_classes 3 500 (by norm_num) (by norm_num) (by norm_num) (by norm_num)
    (by norm_num [U64_SIZE])

/-- C8 counterexample: the claim fails on the code as stated.  The sample
set `[1]` is non-empty, yet `stats` divides the sum by the constant
`BENCH_ITER = 100` rather than the sample count, giving `avg = 1/100`,
which is strictly below `min = 1`. -/
theorem c8_counterexample :
    stats [(1 : ℚ)] = some ⟨1 / 100, 1, 1⟩ ∧
    ¬ ((Stats.mk (1 / 100) 1 1).min ≤ (Stats.mk (1 / 100) 1 1).avg) := by
  constructor
  · simp [stats, BENCH_ITER]
  · norm_num

/-- C8 (amended): for any timing sample set consisting of exactly
`BENCH_ITER` (100) samples — the only shape the program ever feeds to
`stats` — the computed statistics satisfy `min ≤ avg ≤ max`. -/
theorem c8_stats_sanity (vs : List ℚ) (hlen : vs.length = BENCH_ITER) (s : Stats)
    (hs : stats vs = some s) : s.min ≤ s.avg ∧ s.avg ≤ s.max := by
  have havg : s.avg = vs.sum / (BENCH_ITER : ℚ) := stats_avg_eq hs
  have hmin : ∀ y ∈ vs, s.min ≤ y := stats_min_le_all hs
  have hmax : ∀ y ∈ vs, y ≤ s.max := stats_all_le_max hs
  have hsum_ge : (vs.length : ℚ) * s.min ≤ vs.sum := length_mul_le_sum s.min vs hmin
  have hsum_le : vs.sum ≤ (vs.length : ℚ) * s.max := sum_le_length_mul s.max vs hmax
  rw [hlen] at hsum_ge hsum_le
  have hB : (0 : ℚ) < (BENCH_ITER : ℚ) := by norm_num [BENCH_ITER]
  constructor
  · rw [havg, le_div_iff₀ hB]
    calc s.min * (BENCH_ITER : ℚ) = (BENCH_ITER : ℚ) * s.min := by ring
      _ ≤ vs.sum := hsum_ge
  · rw [havg, div_le_iff₀ hB]
    calc vs.sum ≤ (BENCH_ITER : ℚ) * s.max := hsum_le
      _ = s.max * (BENCH_ITER : ℚ) := by ring

theorem c8_witness : (1 : ℚ) ≤ 1 ∧ (1 : ℚ) ≤ 1 :=
  c8_stats_sanity (List.replicate 100 1) (by simp [BENCH_ITER]) ⟨1, 1, 1⟩
    stats_replicate_one

/-- C9: for every sample list accepted by `stats`, the average is the sum of
the samples divided by the fixed constant `BENCH_ITER` (100) — not by the
observed length — while the minimum and maximum are genuine extrema under
the ordering: each is a member of the list, below (respectively above) every
sample. -/
theorem c9_stats_formula (vs : List ℚ) (s : Stats) (hs : stats vs = some s) :
    s.avg = vs.sum / (BENCH_ITER : ℚ) ∧ s.min ∈ vs ∧ s.max ∈ vs ∧
    ∀ y ∈ vs, s.min ≤ y ∧ y ≤ s.max := by
  refine ⟨stats_avg_eq hs, ?_, ?_, fun y hy => ⟨stats_min_le_all hs y hy, stats_all_le_max hs y hy⟩⟩
  · match vs, hs with
    | x :: xs, hs =>
      obtain rfl := Option.some.inj hs
      show xs.foldl Min.min x ∈ x :: xs
      rcases foldl_min_mem xs x with h | h
      · rw [h]; exact List.mem_cons_self x xs
      · exact List.mem_cons_of_mem x h
  · match vs, hs with
    | x :: xs, hs =>
      obtain rfl := Option.some.inj hs
      show xs.foldl Max.max x ∈ x :: xs
      rcases foldl_max_mem xs x with h | h
      · rw [h]; exact List.mem_cons_self x xs
      · exact List.mem_cons_of_mem x h

theorem c9_witness :
    (Stats.mk (1 / 100) 1 1).avg = ([(1 : ℚ)].sum / (BENCH_ITER : ℚ)) ∧
    (Stats.mk (1 / 100) 1 1).min ∈ [(1 : ℚ)] ∧
    (Stats.mk (1 / 100) 1 1).max ∈ [(1 : ℚ)] ∧
    ∀ y ∈ [(1 : ℚ)], (Stats.mk (1 / 100) 1 1).min ≤ y ∧ y ≤ (Stats.mk (1 / 100) 1 1).max :=
  c9_stats_formula [(1 : ℚ)] ⟨1 / 100, 1, 1⟩ (by simp [stats, BENCH_ITER])

/-- C10: the driver loop `for digits in 1..20` visits exactly the classes 1
through 19; for each of them the lower bound `10 ^ (digits - 1)` and the
upper bound `10 ^ (digits - 1) * 10` fit in `u64` and satisfy
`lower < upper`, so the power, the multiplication, and the range sampling
cannot panic; class 20 is never entered, and there the multiplication would
overflow `u64`. -/
theorem c10_bench_range_safe :
    (∀ d ∈ mainDigits,
      1 ≤ d ∧ d ≤ 19 ∧
      benchRangeChecked d = some (10 ^ (d - 1), 10 ^ (d - 1) * 10) ∧
      10 ^ (d - 1) < 10 ^ (d - 1) * 10) ∧
    20 ∉ mainDigits ∧
    benchRangeChecked 20 = none := by
  refine ⟨by decide, by decide, by decide⟩

theorem c10_witness :
    benchRangeChecked 7 = some (10 ^ (7 - 1), 10 ^ (7 - 1) * 10) :=
  (c10_bench_range_safe.1 7 (by decide)).2.2.1
